import Mathlib

/-!
Verification of the logical-clock library (clock.py).

The source defines two clock implementations behind one abstract interface:

* LamportClock: a mutable integer counter plus a fixed process id.
  Its timestamps are pairs (counter, process_id) ordered lexicographically
  (the dataclass with order=True generates exactly tuple comparison).
* VectorClock: a mutable frontier, a dictionary from process id to integer
  counter with default value 0, plus a fixed process id.  Its timestamps
  are immutable snapshots of the frontier, compared by the partial order
  implemented in the __lt__ method of the vector timestamp class.

Python process ids are UUID values; UUID supports a fixed total order (by
the integer value of the UUID), so they are embedded as natural numbers.
Python integers are unbounded, so counters are embedded as Int.

A Python dictionary is a finite map; it is embedded here as an association
list with strictly increasing keys (the canonical representation of the
map).  Equality of canonical lists coincides with Python dict equality,
and every operation of the source preserves canonicity, which is proved
below.  Statements that quantify over arbitrary timestamps carry the
canonicity hypothesis SortedKeys, expressing that the list represents a
dictionary.

Mutation is embedded by explicit state passing: get_time returns the pair
of the produced timestamp and the successor state; seen_time returns the
successor state.
-/

namespace Clock

/-- Process identities: UUID values, embedded as naturals with their fixed
total order. -/
abbrev PID := Nat

/-! ### Lamport clock (classes _LamportTimeStamp, _LamportExport, LamportClock) -/

/-- The frozen dataclass _LamportTimeStamp with fields counter and
process_id, in that order. -/
structure LamportTimeStamp where
  counter : Int
  process_id : PID
deriving DecidableEq, Repr

/-- The comparison generated by the dataclass decorator with order=True:
lexicographic comparison of the field tuple (counter, process_id). -/
def lamportLt (a b : LamportTimeStamp) : Bool :=
  decide (a.counter < b.counter) ||
    (decide (a.counter = b.counter) && decide (a.process_id < b.process_id))

/-- The mutable state of a LamportClock instance: the fixed process id and
the integer counter, initialised to 0 by the constructor. -/
structure LamportClock where
  process_id : PID
  counter : Int
deriving DecidableEq, Repr

/-- LamportClock.__init__ with a given process id: counter starts at 0. -/
def LamportClock.init (pid : PID) : LamportClock :=
  { process_id := pid, counter := 0 }

/-- LamportClock.get_time: increment the counter, return the timestamp of
the new counter together with the successor state. -/
def LamportClock.get_time (c : LamportClock) : LamportTimeStamp × LamportClock :=
  ({ counter := c.counter + 1, process_id := c.process_id },
   { process_id := c.process_id, counter := c.counter + 1 })

/-- LamportClock.seen_time: merge an observed timestamp by taking the
maximum of the local counter and the observed counter. -/
def LamportClock.seen_time (c : LamportClock) (ts : LamportTimeStamp) : LamportClock :=
  { process_id := c.process_id, counter := max c.counter ts.counter }

/-- The dataclass _LamportExport with fields pid and ts. -/
structure LamportExport where
  pid : PID
  ts : LamportTimeStamp
deriving DecidableEq, Repr

/-- LamportClock.export: take a fresh timestamp via get_time and bundle it
with the process id; returns the bundle and the successor state. -/
def LamportClock.exportClock (c : LamportClock) : LamportExport × LamportClock :=
  ({ pid := c.process_id, ts := (c.get_time).1 }, (c.get_time).2)

/-- LamportClock.create_from_export: build a fresh clock with the process
id of the bundle and counter 0, then feed it the bundled timestamp via
seen_time. -/
def LamportClock.create_from_export (e : LamportExport) : LamportClock :=
  (LamportClock.init e.pid).seen_time e.ts

/-! ### Dictionaries as canonical association lists -/

/-- Reading a key from a dictionary: the first binding of the key, if any.
On canonical lists this is the value of the key in the represented map. -/
def lookupL : List (PID × Int) → PID → Option Int
  | [], _ => none
  | (k, v) :: t, q => if q = k then some v else lookupL t q

/-- Reading a key from a defaultdict with default value 0, and also the
read other.timestamps[pid] performed by the comparison under the key-subset
guard (where the key is present, so the default is never taken). -/
def get0 (l : List (PID × Int)) (k : PID) : Int :=
  (lookupL l k).getD 0

/-- Whether a key is present: the membership test pid in dict. -/
def hasKeyB (l : List (PID × Int)) (k : PID) : Bool :=
  (lookupL l k).isSome

/-- Writing d[k] = v on the canonical representation: replace the binding
of k if present, otherwise insert it at its sorted position.  As maps this
is exactly Python dictionary assignment. -/
def insertSorted (k : PID) (v : Int) : List (PID × Int) → List (PID × Int)
  | [] => [(k, v)]
  | (k1, v1) :: t =>
    if k < k1 then (k, v) :: (k1, v1) :: t
    else if k = k1 then (k, v) :: t
    else (k1, v1) :: insertSorted k v t

/-- Canonicity predicate: the association list has strictly increasing
keys, hence represents a finite map (a Python dict) uniquely. -/
def SortedKeys (l : List (PID × Int)) : Prop :=
  List.Pairwise (fun a b : PID × Int => a.1 < b.1) l

instance (l : List (PID × Int)) : Decidable (SortedKeys l) :=
  List.instDecidablePairwise l

/-! ### Vector clock (classes _VectorTimeStamp, _VectorExport, VectorClock) -/

/-- The method _VectorTimeStamp.__lt__ : first require the key set of self
to be a subset of the key set of other; then require every entry of self
to be at most the corresponding entry of other; finally require the two
dictionaries to differ.  The frozen dataclass compares timestamps by
dictionary equality, which on canonical lists is list equality. -/
def vectorLt (a b : List (PID × Int)) : Bool :=
  a.all (fun e => hasKeyB b e.1) &&
    (a.all (fun e => decide (e.2 ≤ get0 b e.1)) && decide (a ≠ b))

/-- The mutable state of a VectorClock instance: the fixed process id and
the frontier dictionary, initialised empty by the constructor. -/
structure VectorClock where
  process_id : PID
  clocks : List (PID × Int)
deriving DecidableEq, Repr

/-- VectorClock.__init__ with a given process id: empty defaultdict. -/
def VectorClock.init (pid : PID) : VectorClock :=
  { process_id := pid, clocks := [] }

/-- The frontier update performed by get_time:
self.clocks[self.process_id] += 1 on a defaultdict, i.e. insert the
process key with its previous value (default 0) plus one. -/
def tickD (l : List (PID × Int)) (p : PID) : List (PID × Int) :=
  insertSorted p (get0 l p + 1) l

/-- VectorClock.get_time: bump the own entry of the frontier, return a
snapshot of the whole frontier and the successor state. -/
def VectorClock.get_time (c : VectorClock) : List (PID × Int) × VectorClock :=
  (tickD c.clocks c.process_id,
   { process_id := c.process_id, clocks := tickD c.clocks c.process_id })

/-- One iteration of the seen_time loop:
self.clocks[pid] = max(self.clocks[pid], ts) for one binding (pid, ts) of
the observed timestamp, where the defaultdict read defaults to 0. -/
def mergeStep (acc : List (PID × Int)) (e : PID × Int) : List (PID × Int) :=
  insertSorted e.1 (max (get0 acc e.1) e.2) acc

/-- The whole seen_time loop: fold mergeStep over the bindings of the
observed timestamp. -/
def mergeFrom (d ts : List (PID × Int)) : List (PID × Int) :=
  ts.foldl mergeStep d

/-- VectorClock.seen_time: merge every binding of the observed timestamp
into the frontier. -/
def VectorClock.seen_time (c : VectorClock) (ts : List (PID × Int)) : VectorClock :=
  { process_id := c.process_id, clocks := mergeFrom c.clocks ts }

/-- The dataclass _VectorExport with fields pid and ts. -/
structure VectorExport where
  pid : PID
  ts : List (PID × Int)
deriving DecidableEq, Repr

/-- VectorClock.export: take a fresh timestamp via get_time and bundle it
with the process id; returns the bundle and the successor state. -/
def VectorClock.exportClock (c : VectorClock) : VectorExport × VectorClock :=
  ({ pid := c.process_id, ts := (c.get_time).1 }, (c.get_time).2)

/-- VectorClock.create_from_export: build a fresh clock with the process
id of the bundle and empty frontier, then feed it the bundled timestamp
via seen_time. -/
def VectorClock.create_from_export (e : VectorExport) : VectorClock :=
  (VectorClock.init e.pid).seen_time e.ts

/-! ### Execution histories of a single clock instance -/

/-- One operation applied to a LamportClock instance: a get_time call or a
seen_time call with some observed timestamp. -/
inductive LOp where
  | tick : LOp
  | seen : LamportTimeStamp → LOp
deriving DecidableEq, Repr

/-- Run a list of operations on a LamportClock; result is the final state
together with the list of timestamps returned by the get_time calls, in
order. -/
def lamportRun (c : LamportClock) : List LOp → LamportClock × List LamportTimeStamp
  | [] => (c, [])
  | LOp.tick :: ops =>
    ((lamportRun ((c.get_time).2) ops).1,
     (c.get_time).1 :: (lamportRun ((c.get_time).2) ops).2)
  | LOp.seen ts :: ops => lamportRun (c.seen_time ts) ops

/-- One operation applied to a VectorClock instance. -/
inductive VOp where
  | tick : VOp
  | seen : List (PID × Int) → VOp
deriving DecidableEq, Repr

/-- Run a list of operations on a VectorClock; result is the final state
together with the list of timestamps returned by the get_time calls. -/
def vectorRun (c : VectorClock) : List VOp → VectorClock × List (List (PID × Int))
  | [] => (c, [])
  | VOp.tick :: ops =>
    ((vectorRun ((c.get_time).2) ops).1,
     (c.get_time).1 :: (vectorRun ((c.get_time).2) ops).2)
  | VOp.seen ts :: ops => vectorRun (c.seen_time ts) ops

/-! ### Pointwise domination of dictionaries -/

/-- Domination of dictionaries: every key present in a is present in b
with a value at least the value in a.  This is the frontier-growth
relation, and it is also the subset-and-pointwise part of the vector
timestamp comparison. -/
def VleD (a b : List (PID × Int)) : Prop :=
  ∀ k v, lookupL a k = some v → ∃ w, lookupL b k = some w ∧ v ≤ w

/-! ### Export bundles with possibly missing fields -/

/-- An export bundle object whose two fields may each be absent, as when a
caller passes a malformed object to create_from_export.  A missing field
models an object without that attribute. -/
structure RawLamportExport where
  pid : Option PID
  ts : Option LamportTimeStamp
deriving DecidableEq, Repr

/-- An export bundle for the vector clock whose fields may be absent. -/
structure RawVectorExport where
  pid : Option PID
  ts : Option (List (PID × Int))
deriving DecidableEq, Repr

/-- Reading an attribute of a bundle object: returns the value when the
field is present and signals the AttributeError the Python runtime raises
when it is absent. -/
def getField {α : Type} : Option α → Except String α
  | some a => Except.ok a
  | none => Except.error "AttributeError"

/-- LamportClock.create_from_export applied to a possibly malformed
bundle: the constructor call reads export.pid first, the seen_time call
reads export.ts; an absent attribute aborts the call with the error and no
clock is returned. -/
def LamportClock.create_from_export_checked (e : RawLamportExport) :
    Except String LamportClock :=
  match getField e.pid with
  | Except.error m => Except.error m
  | Except.ok p =>
    match getField e.ts with
    | Except.error m => Except.error m
    | Except.ok ts => Except.ok ((LamportClock.init p).seen_time ts)

/-- VectorClock.create_from_export applied to a possibly malformed bundle,
with the same attribute-access behaviour. -/
def VectorClock.create_from_export_checked (e : RawVectorExport) :
    Except String VectorClock :=
  match getField e.pid with
  | Except.error m => Except.error m
  | Except.ok p =>
    match getField e.ts with
    | Except.error m => Except.error m
    | Except.ok ts => Except.ok ((VectorClock.init p).seen_time ts)

/-! ### The comparison rule as worded by the specification -/

/-- The less-or-equal relation exactly as the specification words it: for
every key k present in a, the value of a at k is at most the value of b at
k, with a key absent in b read as 0.  This definition follows the words of
the specification, not the source, and is compared against vectorLt. -/
def specVle (a b : List (PID × Int)) : Bool :=
  a.all (fun e => decide (e.2 ≤ get0 b e.1))

/-- The strict comparison as worded by the specification: a is less than b
iff specVle a b holds and a and b differ. -/
def specVlt (a b : List (PID × Int)) : Bool :=
  specVle a b && decide (a ≠ b)

/-! ### Basic laws of the dictionary representation -/

/-- Reading back the key just written yields the written value. -/
theorem lookupL_insertSorted_self (k : PID) (v : Int) :
    ∀ l : List (PID × Int), lookupL (insertSorted k v l) k = some v := by
  intro l
  induction l with
  | nil => simp [insertSorted, lookupL]
  | cons h t ih =>
    obtain ⟨k1, v1⟩ := h
    by_cases h1 : k < k1
    · simp [insertSorted, h1, lookupL]
    · by_cases h2 : k = k1
      · simp [insertSorted, h1, h2, lookupL]
      · have hne : ¬ k = k1 := h2
        simp [insertSorted, h1, h2, lookupL, hne, ih]

/-- Writing one key does not change the reads of other keys. -/
theorem lookupL_insertSorted_ne (k q : PID) (v : Int) (hq : q ≠ k) :
    ∀ l : List (PID × Int), lookupL (insertSorted k v l) q = lookupL l q := by
  intro l
  induction l with
  | nil => simp [insertSorted, lookupL, hq]
  | cons h t ih =>
    obtain ⟨k1, v1⟩ := h
    by_cases h1 : k < k1
    · simp [insertSorted, h1, lookupL, hq]
    · by_cases h2 : k = k1
      · subst h2
        simp [insertSorted, h1, lookupL, hq]
      · by_cases h3 : q = k1
        · simp [insertSorted, h1, h2, lookupL, h3]
        · simp [insertSorted, h1, h2, lookupL, h3, ih]

/-- Every element of the list after a write is the written binding or an
original element. -/
theorem mem_insertSorted {k : PID} {v : Int} :
    ∀ {l : List (PID × Int)} {e : PID × Int},
      e ∈ insertSorted k v l → e = (k, v) ∨ e ∈ l := by
  intro l
  induction l with
  | nil => intro e he; simp [insertSorted] at he; exact Or.inl he
  | cons h t ih =>
    obtain ⟨k1, v1⟩ := h
    intro e he
    by_cases h1 : k < k1
    · simp [insertSorted, h1] at he
      rcases he with he | he | he
      · exact Or.inl he
      · exact Or.inr (by simp [he])
      · exact Or.inr (by simp [he])
    · by_cases h2 : k = k1
      · subst h2
        simp [insertSorted, h1] at he
        rcases he with he | he
        · exact Or.inl he
        · exact Or.inr (by simp [he])
      · simp [insertSorted, h1, h2] at he
        rcases he with he | he
        · exact Or.inr (by simp [he])
        · rcases ih he with h3 | h3
          · exact Or.inl h3
          · exact Or.inr (by simp [h3])

/-- Writing a key preserves canonicity of the representation. -/
theorem sortedKeys_insertSorted (k : PID) (v : Int) :
    ∀ {l : List (PID × Int)}, SortedKeys l → SortedKeys (insertSorted k v l) := by
  intro l
  induction l with
  | nil => intro _; simp [insertSorted, SortedKeys]
  | cons h t ih =>
    obtain ⟨k1, v1⟩ := h
    intro hs
    rw [SortedKeys, List.pairwise_cons] at hs
    obtain ⟨hhead, htail⟩ := hs
    by_cases h1 : k < k1
    · rw [SortedKeys]
      simp only [insertSorted, h1, if_pos]
      refine List.Pairwise.cons ?_ (List.Pairwise.cons hhead htail)
      intro e he
      simp at he
      rcases he with he | he
      · simp [he, h1]
      · exact lt_trans h1 (hhead e he)
    · by_cases h2 : k = k1
      · subst h2
        have heq : insertSorted k v ((k, v1) :: t) = (k, v) :: t := by
          simp [insertSorted]
        rw [SortedKeys, heq]
        exact List.Pairwise.cons hhead htail
      · have heq : insertSorted k v ((k1, v1) :: t)
            = (k1, v1) :: insertSorted k v t := by
          simp [insertSorted, h1, h2]
        rw [SortedKeys, heq]
        refine List.Pairwise.cons ?_ (ih htail)
        intro e he
        rcases mem_insertSorted he with h3 | h3
        · have hk : k1 < k :=
            lt_of_le_of_ne (Nat.le_of_not_lt h1) (fun hh => h2 hh.symm)
          simp [h3, hk]
        · exact hhead e h3


/-- A successful read exhibits a binding of the list. -/
theorem mem_of_lookupL_eq_some :
    ∀ {l : List (PID × Int)} {k : PID} {v : Int},
      lookupL l k = some v → (k, v) ∈ l := by
  intro l
  induction l with
  | nil => intro k v h; simp [lookupL] at h
  | cons e t ih =>
    obtain ⟨k1, v1⟩ := e
    intro k v h
    by_cases hk : k = k1
    · subst hk
      simp [lookupL] at h
      simp [h]
    · simp [lookupL, hk] at h
      exact List.mem_cons_of_mem _ (ih h)

/-- On a canonical list every binding is recovered by the read of its
key. -/
theorem lookupL_eq_some_of_mem :
    ∀ {l : List (PID × Int)} {k : PID} {v : Int},
      SortedKeys l → (k, v) ∈ l → lookupL l k = some v := by
  intro l
  induction l with
  | nil => intro k v _ h; simp at h
  | cons e t ih =>
    obtain ⟨k1, v1⟩ := e
    intro k v hs hm
    rw [SortedKeys, List.pairwise_cons] at hs
    obtain ⟨hhead, htail⟩ := hs
    cases List.mem_cons.mp hm with
    | inl h0 =>
      have hk : k = k1 := congrArg Prod.fst h0
      have hv : v = v1 := congrArg Prod.snd h0
      simp [lookupL, hk, hv]
    | inr h0 =>
      by_cases hk : k = k1
      · subst hk
        exact absurd (hhead (k, v) h0) (lt_irrefl k)
      · simp [lookupL, hk]
        exact ih htail h0

/-- The head key of a canonical list does not occur in the tail. -/
theorem lookupL_tail_none {k1 : PID} {v1 : Int} {t : List (PID × Int)}
    (hs : SortedKeys ((k1, v1) :: t)) : lookupL t k1 = none := by
  rw [SortedKeys, List.pairwise_cons] at hs
  cases h : lookupL t k1 with
  | none => rfl
  | some v =>
    have hm := mem_of_lookupL_eq_some h
    have : k1 < k1 := hs.1 (k1, v) hm
    exact absurd this (lt_irrefl k1)

/-- Canonical lists are determined by their read function: two dicts with
the same reads are equal.  This is the converse of dict equality and makes
list equality coincide with Python dictionary equality. -/
theorem sorted_lookup_ext :
    ∀ {a : List (PID × Int)}, SortedKeys a → ∀ {b : List (PID × Int)}, SortedKeys b →
      (∀ k, lookupL a k = lookupL b k) → a = b := by
  intro a
  induction a with
  | nil =>
    intro _ b hb hab
    cases b with
    | nil => rfl
    | cons e t =>
      obtain ⟨k2, v2⟩ := e
      have := hab k2
      simp [lookupL] at this
  | cons e t ih =>
    obtain ⟨k1, v1⟩ := e
    intro ha b hb hab
    cases b with
    | nil =>
      have := hab k1
      simp [lookupL] at this
    | cons f u =>
      obtain ⟨k2, v2⟩ := f
      have e1 : lookupL ((k2, v2) :: u) k1 = some v1 := by
        have := hab k1
        simpa [lookupL] using this.symm
      have e2 : lookupL ((k1, v1) :: t) k2 = some v2 := by
        have := hab k2
        simpa [lookupL] using this
      have hk12 : k2 ≤ k1 := by
        by_cases hk : k1 = k2
        · exact hk ▸ le_refl k1
        · have hm : (k1, v1) ∈ u := by
            simp [lookupL, hk] at e1
            exact mem_of_lookupL_eq_some e1
          rw [SortedKeys, List.pairwise_cons] at hb
          exact le_of_lt (hb.1 (k1, v1) hm)
      have hk21 : k1 ≤ k2 := by
        by_cases hk : k2 = k1
        · exact hk ▸ le_refl k2
        · have hm : (k2, v2) ∈ t := by
            simp [lookupL, hk] at e2
            exact mem_of_lookupL_eq_some e2
          rw [SortedKeys, List.pairwise_cons] at ha
          exact le_of_lt (ha.1 (k2, v2) hm)
      have hk : k1 = k2 := le_antisymm hk21 hk12
      subst hk
      have hv : v1 = v2 := by
        simp [lookupL] at e2
        omega
      subst hv
      have htails : ∀ k, lookupL t k = lookupL u k := by
        intro k
        by_cases hk : k = k1
        · subst hk
          rw [lookupL_tail_none ha, lookupL_tail_none hb]
        · have := hab k
          simpa [lookupL, hk] using this
      rw [SortedKeys, List.pairwise_cons] at ha hb
      rw [ih ha.2 hb.2 htails]

/-! ### Characterisation of the seen_time merge and the get_time tick -/

/-- A key absent from the observed timestamp is untouched by the seen_time
loop. -/
theorem lookupL_mergeFrom_of_none :
    ∀ {ts : List (PID × Int)} (d : List (PID × Int)) {k : PID},
      lookupL ts k = none → lookupL (mergeFrom d ts) k = lookupL d k := by
  intro ts
  induction ts with
  | nil => intro d k _; rfl
  | cons e t ih =>
    obtain ⟨k1, v1⟩ := e
    intro d k hk
    by_cases h1 : k = k1
    · subst h1; simp [lookupL] at hk
    · simp [lookupL, h1] at hk
      have : mergeFrom d ((k1, v1) :: t) = mergeFrom (mergeStep d (k1, v1)) t := rfl
      rw [this, ih _ hk, mergeStep]
      exact lookupL_insertSorted_ne k1 k _ h1 d

/-- A key bound to v in a canonical observed timestamp reads as the
maximum of its old value (default 0) and v after the seen_time loop. -/
theorem lookupL_mergeFrom_of_some :
    ∀ {ts : List (PID × Int)}, SortedKeys ts →
      ∀ (d : List (PID × Int)) {k : PID} {v : Int},
        lookupL ts k = some v →
        lookupL (mergeFrom d ts) k = some (max (get0 d k) v) := by
  intro ts
  induction ts with
  | nil => intro _ d k v h; simp [lookupL] at h
  | cons e t ih =>
    obtain ⟨k1, v1⟩ := e
    intro hs d k v hk
    have hstep : mergeFrom d ((k1, v1) :: t) = mergeFrom (mergeStep d (k1, v1)) t := rfl
    rw [SortedKeys, List.pairwise_cons] at hs
    by_cases h1 : k = k1
    · subst h1
      simp [lookupL] at hk
      subst hk
      have htn : lookupL t k = none :=
        lookupL_tail_none (by rw [SortedKeys, List.pairwise_cons]; exact hs)
      rw [hstep, lookupL_mergeFrom_of_none _ htn, mergeStep]
      exact lookupL_insertSorted_self k _ d
    · simp [lookupL, h1] at hk
      rw [hstep, ih hs.2 _ hk]
      have : get0 (mergeStep d (k1, v1)) k = get0 d k := by
        rw [get0, get0, mergeStep, lookupL_insertSorted_ne k1 k _ h1 d]
      rw [this]

/-- The seen_time loop preserves canonicity of the frontier. -/
theorem sortedKeys_mergeFrom :
    ∀ (ts : List (PID × Int)) {d : List (PID × Int)},
      SortedKeys d → SortedKeys (mergeFrom d ts) := by
  intro ts
  induction ts with
  | nil => intro d hd; exact hd
  | cons e t ih =>
    intro d hd
    have hstep : mergeFrom d (e :: t) = mergeFrom (mergeStep d e) t := rfl
    rw [hstep]
    exact ih (sortedKeys_insertSorted _ _ hd)

/-- The get_time tick preserves canonicity of the frontier. -/
theorem sortedKeys_tickD {d : List (PID × Int)} (p : PID) (hd : SortedKeys d) :
    SortedKeys (tickD d p) :=
  sortedKeys_insertSorted _ _ hd

/-- Reading the own entry right after a tick gives the old value plus
one. -/
theorem lookupL_tickD_self (d : List (PID × Int)) (p : PID) :
    lookupL (tickD d p) p = some (get0 d p + 1) :=
  lookupL_insertSorted_self p _ d

/-- Reading another entry after a tick is unchanged. -/
theorem lookupL_tickD_ne (d : List (PID × Int)) {p q : PID} (h : q ≠ p) :
    lookupL (tickD d p) q = lookupL d q :=
  lookupL_insertSorted_ne p q _ h d

/-! ### Laws of the domination relation -/

/-- Domination is reflexive. -/
theorem vleD_refl (d : List (PID × Int)) : VleD d d := by
  intro k v h
  exact ⟨v, h, le_refl v⟩

/-- Domination is transitive. -/
theorem vleD_trans {a b c : List (PID × Int)} (h1 : VleD a b) (h2 : VleD b c) :
    VleD a c := by
  intro k v h
  obtain ⟨w, hw, hvw⟩ := h1 k v h
  obtain ⟨u, hu, hwu⟩ := h2 k w hw
  exact ⟨u, hu, le_trans hvw hwu⟩

/-- Mutual domination of canonical dicts forces equality. -/
theorem vleD_antisymm {a b : List (PID × Int)} (ha : SortedKeys a)
    (hb : SortedKeys b) (h1 : VleD a b) (h2 : VleD b a) : a = b := by
  refine sorted_lookup_ext ha hb ?_
  intro k
  cases hak : lookupL a k with
  | none =>
    cases hbk : lookupL b k with
    | none => rfl
    | some w =>
      obtain ⟨u, hu, _⟩ := h2 k w hbk
      rw [hak] at hu
      exact absurd hu (by simp)
  | some v =>
    obtain ⟨w, hw, hvw⟩ := h1 k v hak
    obtain ⟨u, hu, hwu⟩ := h2 k w hw
    rw [hak] at hu
    have huv : v = u := by injection hu
    rw [hw]
    have : v = w := by omega
    rw [this]

/-- The tick grows the frontier: domination of the old state by the new
one. -/
theorem vleD_tickD (d : List (PID × Int)) (p : PID) : VleD d (tickD d p) := by
  intro k v h
  by_cases hk : k = p
  · subst hk
    refine ⟨get0 d k + 1, lookupL_tickD_self d k, ?_⟩
    have : get0 d k = v := by rw [get0, h]; rfl
    omega
  · exact ⟨v, by rw [lookupL_tickD_ne d hk, h], le_refl v⟩

/-- One iteration of the seen_time loop grows the frontier. -/
theorem vleD_mergeStep (d : List (PID × Int)) (e : PID × Int) :
    VleD d (mergeStep d e) := by
  intro k v h
  by_cases hk : k = e.1
  · refine ⟨max (get0 d e.1) e.2, ?_, ?_⟩
    · rw [mergeStep, hk]
      exact lookupL_insertSorted_self e.1 _ d
    · have hg : get0 d e.1 = v := by rw [get0, ← hk, h]; rfl
      omega
  · exact ⟨v, by rw [mergeStep, lookupL_insertSorted_ne _ _ _ hk d, h], le_refl v⟩

/-- The whole seen_time loop grows the frontier, for any observed list. -/
theorem vleD_mergeFrom_left :
    ∀ (ts d : List (PID × Int)), VleD d (mergeFrom d ts) := by
  intro ts
  induction ts with
  | nil => intro d; exact vleD_refl d
  | cons e t ih =>
    intro d
    have hstep : mergeFrom d (e :: t) = mergeFrom (mergeStep d e) t := rfl
    rw [hstep]
    exact vleD_trans (vleD_mergeStep d e) (ih (mergeStep d e))

/-- After the seen_time loop the frontier dominates the canonical observed
timestamp. -/
theorem vleD_mergeFrom_right {ts : List (PID × Int)} (hts : SortedKeys ts)
    (d : List (PID × Int)) : VleD ts (mergeFrom d ts) := by
  intro k v h
  refine ⟨max (get0 d k) v, lookupL_mergeFrom_of_some hts d h, le_max_right _ v⟩

/-! ### The vector comparison, characterised -/

/-- The comparison of the source, unfolded into the domination relation:
for a canonical left operand, a is strictly below b exactly when b
dominates a and the two dicts differ.  In particular every key of a must
be present in b, a zero value does not excuse an absent key. -/
theorem vectorLt_eq_true_iff {a : List (PID × Int)} (ha : SortedKeys a)
    (b : List (PID × Int)) :
    vectorLt a b = true ↔ (VleD a b ∧ a ≠ b) := by
  rw [vectorLt]
  simp only [Bool.and_eq_true, List.all_eq_true, decide_eq_true_eq]
  constructor
  · rintro ⟨hsub, hval, hne⟩
    refine ⟨?_, hne⟩
    intro k v h
    have hm : (k, v) ∈ a := mem_of_lookupL_eq_some h
    have hk := hsub (k, v) hm
    rw [hasKeyB] at hk
    obtain ⟨w, hw⟩ := Option.isSome_iff_exists.mp hk
    refine ⟨w, hw, ?_⟩
    have hv := hval (k, v) hm
    rw [get0, hw] at hv
    exact hv
  · rintro ⟨hdom, hne⟩
    refine ⟨?_, ?_, hne⟩
    · intro e he
      obtain ⟨w, hw, _⟩ := hdom e.1 e.2 (lookupL_eq_some_of_mem ha he)
      rw [hasKeyB, hw]
      rfl
    · intro e he
      obtain ⟨w, hw, hvw⟩ := hdom e.1 e.2 (lookupL_eq_some_of_mem ha he)
      rw [get0, hw]
      exact hvw

/-- Any canonical timestamp dominated by the frontier is strictly below
the timestamp produced by the next tick. -/
theorem vectorLt_tickD {o d : List (PID × Int)} (ho : SortedKeys o)
    (hdom : VleD o d) (p : PID) : vectorLt o (tickD d p) = true := by
  rw [vectorLt_eq_true_iff ho]
  refine ⟨vleD_trans hdom (vleD_tickD d p), ?_⟩
  intro he
  have hp : lookupL o p = some (get0 d p + 1) := by
    rw [he]
    exact lookupL_tickD_self d p
  obtain ⟨w, hw, hle⟩ := hdom p _ hp
  have : get0 d p = w := by rw [get0, hw]; rfl
  omega

/-! ### Invariants of execution histories -/

/-- Along any history of a LamportClock instance the process id is fixed,
the counter never decreases, and every returned timestamp carries a
counter at most the final counter. -/
theorem lamportRun_invariant :
    ∀ (ops : List LOp) (c : LamportClock),
      (lamportRun c ops).1.process_id = c.process_id ∧
      c.counter ≤ (lamportRun c ops).1.counter ∧
      ∀ o ∈ (lamportRun c ops).2, o.counter ≤ (lamportRun c ops).1.counter := by
  intro ops
  induction ops with
  | nil =>
    intro c
    refine ⟨rfl, le_refl _, ?_⟩
    intro o ho
    simp [lamportRun] at ho
  | cons op t ih =>
    intro c
    cases op with
    | tick =>
      obtain ⟨hpid, hle, houts⟩ := ih ((c.get_time).2)
      have h1 : (lamportRun c (LOp.tick :: t)).1 = (lamportRun ((c.get_time).2) t).1 := rfl
      have h2 : (lamportRun c (LOp.tick :: t)).2
          = (c.get_time).1 :: (lamportRun ((c.get_time).2) t).2 := rfl
      refine ⟨?_, ?_, ?_⟩
      · rw [h1, hpid]
        rfl
      · rw [h1]
        have hc : c.counter ≤ ((c.get_time).2).counter := by
          show c.counter ≤ c.counter + 1
          omega
        exact le_trans hc hle
      · intro o ho
        rw [h2] at ho
        rw [h1]
        cases List.mem_cons.mp ho with
        | inl h0 =>
          subst h0
          exact hle
        | inr h0 => exact houts o h0
    | seen ts =>
      obtain ⟨hpid, hle, houts⟩ := ih (c.seen_time ts)
      have h1 : lamportRun c (LOp.seen ts :: t) = lamportRun (c.seen_time ts) t := rfl
      refine ⟨?_, ?_, ?_⟩
      · rw [h1, hpid]
        rfl
      · rw [h1]
        refine le_trans ?_ hle
        show c.counter ≤ max c.counter ts.counter
        exact le_max_left _ _
      · intro o ho
        rw [h1] at ho
        rw [h1]
        exact houts o ho

/-- Along any history of a VectorClock instance the process id is fixed
and, starting from a canonical frontier, the frontier stays canonical,
the final frontier dominates the initial one, and every returned
timestamp is canonical and dominated by the final frontier. -/
theorem vectorRun_invariant :
    ∀ (ops : List VOp) (c : VectorClock),
      (vectorRun c ops).1.process_id = c.process_id ∧
      (SortedKeys c.clocks →
        SortedKeys (vectorRun c ops).1.clocks ∧
        VleD c.clocks (vectorRun c ops).1.clocks ∧
        ∀ o ∈ (vectorRun c ops).2,
          SortedKeys o ∧ VleD o (vectorRun c ops).1.clocks) := by
  intro ops
  induction ops with
  | nil =>
    intro c
    refine ⟨rfl, ?_⟩
    intro hs
    refine ⟨hs, vleD_refl _, ?_⟩
    intro o ho
    simp [vectorRun] at ho
  | cons op t ih =>
    intro c
    cases op with
    | tick =>
      obtain ⟨hpid, hrest⟩ := ih ((c.get_time).2)
      have h1 : (vectorRun c (VOp.tick :: t)).1 = (vectorRun ((c.get_time).2) t).1 := rfl
      have h2 : (vectorRun c (VOp.tick :: t)).2
          = (c.get_time).1 :: (vectorRun ((c.get_time).2) t).2 := rfl
      refine ⟨by rw [h1, hpid]; rfl, ?_⟩
      intro hs
      have hs2 : SortedKeys ((c.get_time).2).clocks := sortedKeys_tickD _ hs
      obtain ⟨hfin, hdom, houts⟩ := hrest hs2
      refine ⟨by rw [h1]; exact hfin, ?_, ?_⟩
      · rw [h1]
        exact vleD_trans (vleD_tickD c.clocks c.process_id) hdom
      · intro o ho
        rw [h2] at ho
        rw [h1]
        cases List.mem_cons.mp ho with
        | inl h0 =>
          subst h0
          exact ⟨hs2, hdom⟩
        | inr h0 => exact houts o h0
    | seen ts =>
      obtain ⟨hpid, hrest⟩ := ih (c.seen_time ts)
      have h1 : vectorRun c (VOp.seen ts :: t) = vectorRun (c.seen_time ts) t := rfl
      refine ⟨by rw [h1, hpid]; rfl, ?_⟩
      intro hs
      have hs2 : SortedKeys (c.seen_time ts).clocks := sortedKeys_mergeFrom ts hs
      obtain ⟨hfin, hdom, houts⟩ := hrest hs2
      refine ⟨by rw [h1]; exact hfin, ?_, ?_⟩
      · rw [h1]
        exact vleD_trans (vleD_mergeFrom_left ts c.clocks) hdom
      · intro o ho
        rw [h1] at ho
        rw [h1]
        exact houts o ho

/-! ### The claims -/

/-- Claim C1: Local monotonicity.  For every clock instance of either kind
(LamportClock or VectorClock), two successive calls to get_time on the
same instance return timestamps t1 then t2 with t1 strictly below t2 under
the order of that timestamp type.  For the vector kind the instance state
is a canonical dictionary. -/
theorem C1_local_monotonicity :
    (∀ c : LamportClock,
      lamportLt ((c.get_time).1) ((((c.get_time).2).get_time).1) = true) ∧
    (∀ c : VectorClock, SortedKeys c.clocks →
      vectorLt ((c.get_time).1) ((((c.get_time).2).get_time).1) = true) := by
  constructor
  · intro c
    rw [lamportLt]
    simp only [Bool.or_eq_true, Bool.and_eq_true, decide_eq_true_eq]
    left
    show c.counter + 1 < c.counter + 1 + 1
    omega
  · intro c hs
    have hs1 : SortedKeys (tickD c.clocks c.process_id) := sortedKeys_tickD _ hs
    exact vectorLt_tickD hs1 (vleD_refl _) c.process_id

/-- Witness for C1 at a fresh instance of each kind. -/
theorem C1_local_monotonicity_witness :
    lamportLt (((LamportClock.init 0).get_time).1)
      (((((LamportClock.init 0).get_time).2).get_time).1) = true ∧
    vectorLt (((VectorClock.init 0).get_time).1)
      (((((VectorClock.init 0).get_time).2).get_time).1) = true :=
  ⟨C1_local_monotonicity.1 (LamportClock.init 0),
   C1_local_monotonicity.2 (VectorClock.init 0) (by decide)⟩

/-- Claim C5: Scalar totality.  For any two Lamport timestamps with
distinct process identities, exactly one of t1 below t2 and t2 below t1
holds and the timestamps differ; the order compares counters first and
breaks equal counters by the fixed total order on process identities. -/
theorem C5_scalar_totality :
    ∀ t1 t2 : LamportTimeStamp, t1.process_id ≠ t2.process_id →
      (lamportLt t1 t2 = true ∨ lamportLt t2 t1 = true) ∧
      ¬(lamportLt t1 t2 = true ∧ lamportLt t2 t1 = true) ∧
      t1 ≠ t2 ∧
      (lamportLt t1 t2 = true ↔
        (t1.counter < t2.counter ∨
          (t1.counter = t2.counter ∧ t1.process_id < t2.process_id))) := by
  intro t1 t2 hne
  have hiff : ∀ a b : LamportTimeStamp,
      lamportLt a b = true ↔
        (a.counter < b.counter ∨
          (a.counter = b.counter ∧ a.process_id < b.process_id)) := by
    intro a b
    rw [lamportLt]
    simp
  refine ⟨?_, ?_, ?_, hiff t1 t2⟩
  · rw [hiff, hiff]
    rcases lt_trichotomy t1.counter t2.counter with h | h | h
    · exact Or.inl (Or.inl h)
    · rcases lt_or_gt_of_ne hne with hp | hp
      · exact Or.inl (Or.inr ⟨h, hp⟩)
      · exact Or.inr (Or.inr ⟨h.symm, hp⟩)
    · exact Or.inr (Or.inl h)
  · rintro ⟨h1, h2⟩
    rw [hiff] at h1 h2
    rcases h1 with h1 | ⟨h1e, h1p⟩
    · rcases h2 with h2 | ⟨h2e, h2p⟩
      · exact absurd (lt_trans h1 h2) (lt_irrefl _)
      · omega
    · rcases h2 with h2 | ⟨h2e, h2p⟩
      · omega
      · exact absurd (lt_trans h1p h2p) (lt_irrefl _)
  · intro he
    exact hne (congrArg LamportTimeStamp.process_id he)

/-- Witness for C5 at two timestamps with equal counters and distinct
process identities. -/
theorem C5_scalar_totality_witness :
    lamportLt { counter := 1, process_id := 0 } { counter := 1, process_id := 1 } = true ∨
    lamportLt { counter := 1, process_id := 1 } { counter := 1, process_id := 0 } = true :=
  (C5_scalar_totality { counter := 1, process_id := 0 }
    { counter := 1, process_id := 1 } (by decide)).1

/-- Claim C6: Vector independence.  For two freshly constructed vector
clocks with distinct process identities that never exchanged timestamps,
their first get_time results are incomparable and different. -/
theorem C6_vector_independence :
    ∀ p1 p2 : PID, p1 ≠ p2 →
      vectorLt (((VectorClock.init p1).get_time).1)
        (((VectorClock.init p2).get_time).1) = false ∧
      vectorLt (((VectorClock.init p2).get_time).1)
        (((VectorClock.init p1).get_time).1) = false ∧
      ((VectorClock.init p1).get_time).1 ≠ ((VectorClock.init p2).get_time).1 := by
  intro p1 p2 hne
  have ht : ∀ p : PID, ((VectorClock.init p).get_time).1 = [(p, 1)] := by
    intro p
    show tickD [] p = [(p, 1)]
    rw [tickD, get0]
    rfl
  rw [ht p1, ht p2]
  refine ⟨?_, ?_, ?_⟩
  · rw [vectorLt]
    simp [hasKeyB, lookupL, hne]
  · rw [vectorLt]
    simp [hasKeyB, lookupL, Ne.symm hne]
  · simp [hne]

/-- Witness for C6 at the process identities 0 and 1. -/
theorem C6_vector_independence_witness :
    vectorLt (((VectorClock.init 0).get_time).1)
      (((VectorClock.init 1).get_time).1) = false ∧
    ((VectorClock.init 0).get_time).1 ≠ ((VectorClock.init 1).get_time).1 :=
  ⟨(C6_vector_independence 0 1 (by decide)).1,
   (C6_vector_independence 0 1 (by decide)).2.2⟩

/-- Claim C7: Observe is idempotent and commutative.  For every clock
instance of either kind and all timestamps of the matching type (canonical
dictionaries for the vector kind), calling seen_time twice with the same
timestamp leaves the state equal to calling it once, and two seen_time
calls commute. -/
theorem C7_observe_idempotent_commutative :
    (∀ (c : LamportClock) (ta tb : LamportTimeStamp),
      (c.seen_time ta).seen_time ta = c.seen_time ta ∧
      (c.seen_time ta).seen_time tb = (c.seen_time tb).seen_time ta) ∧
    (∀ (c : VectorClock) (ta tb : List (PID × Int)),
      SortedKeys c.clocks → SortedKeys ta → SortedKeys tb →
        (c.seen_time ta).seen_time ta = c.seen_time ta ∧
        (c.seen_time ta).seen_time tb = (c.seen_time tb).seen_time ta) := by
  constructor
  · intro c ta tb
    constructor
    · show LamportClock.mk c.process_id (max (max c.counter ta.counter) ta.counter)
        = LamportClock.mk c.process_id (max c.counter ta.counter)
      congr 1
      omega
    · show LamportClock.mk c.process_id (max (max c.counter ta.counter) tb.counter)
        = LamportClock.mk c.process_id (max (max c.counter tb.counter) ta.counter)
      congr 1
      omega
  · intro c ta tb hs hta htb
    constructor
    · show VectorClock.mk c.process_id (mergeFrom (mergeFrom c.clocks ta) ta)
        = VectorClock.mk c.process_id (mergeFrom c.clocks ta)
      refine congrArg (VectorClock.mk c.process_id) ?_
      refine sorted_lookup_ext
        (sortedKeys_mergeFrom ta (sortedKeys_mergeFrom ta hs))
        (sortedKeys_mergeFrom ta hs) ?_
      intro k
      cases hak : lookupL ta k with
      | none =>
        rw [lookupL_mergeFrom_of_none _ hak, lookupL_mergeFrom_of_none _ hak]
      | some v =>
        rw [lookupL_mergeFrom_of_some hta (mergeFrom c.clocks ta) hak,
            lookupL_mergeFrom_of_some hta c.clocks hak]
        have hg : get0 (mergeFrom c.clocks ta) k = max (get0 c.clocks k) v := by
          rw [get0, lookupL_mergeFrom_of_some hta c.clocks hak]
          rfl
        rw [hg]
        congr 1
        omega
    · show VectorClock.mk c.process_id (mergeFrom (mergeFrom c.clocks ta) tb)
        = VectorClock.mk c.process_id (mergeFrom (mergeFrom c.clocks tb) ta)
      refine congrArg (VectorClock.mk c.process_id) ?_
      refine sorted_lookup_ext
        (sortedKeys_mergeFrom tb (sortedKeys_mergeFrom ta hs))
        (sortedKeys_mergeFrom ta (sortedKeys_mergeFrom tb hs)) ?_
      intro k
      cases hak : lookupL ta k with
      | none =>
        cases hbk : lookupL tb k with
        | none =>
          rw [lookupL_mergeFrom_of_none _ hbk, lookupL_mergeFrom_of_none _ hak,
              lookupL_mergeFrom_of_none _ hak, lookupL_mergeFrom_of_none _ hbk]
        | some w =>
          rw [lookupL_mergeFrom_of_some htb (mergeFrom c.clocks ta) hbk,
              lookupL_mergeFrom_of_none (mergeFrom c.clocks tb) hak,
              lookupL_mergeFrom_of_some htb c.clocks hbk]
          have hg : get0 (mergeFrom c.clocks ta) k = get0 c.clocks k := by
            rw [get0, lookupL_mergeFrom_of_none c.clocks hak, get0]
          rw [hg]
      | some v =>
        cases hbk : lookupL tb k with
        | none =>
          rw [lookupL_mergeFrom_of_none (mergeFrom c.clocks ta) hbk,
              lookupL_mergeFrom_of_some hta c.clocks hak,
              lookupL_mergeFrom_of_some hta (mergeFrom c.clocks tb) hak]
          have hg : get0 (mergeFrom c.clocks tb) k = get0 c.clocks k := by
            rw [get0, lookupL_mergeFrom_of_none c.clocks hbk, get0]
          rw [hg]
        | some w =>
          rw [lookupL_mergeFrom_of_some htb (mergeFrom c.clocks ta) hbk,
              lookupL_mergeFrom_of_some hta (mergeFrom c.clocks tb) hak]
          have hga : get0 (mergeFrom c.clocks ta) k = max (get0 c.clocks k) v := by
            rw [get0, lookupL_mergeFrom_of_some hta c.clocks hak]
            rfl
          have hgb : get0 (mergeFrom c.clocks tb) k = max (get0 c.clocks k) w := by
            rw [get0, lookupL_mergeFrom_of_some htb c.clocks hbk]
            rfl
          rw [hga, hgb]
          congr 1
          omega

/-- Witness for C7 at a concrete vector instance and two concrete
timestamps. -/
theorem C7_observe_idempotent_commutative_witness :
    ((VectorClock.init 0).seen_time [(1, 2)]).seen_time [(0, 3)]
      = ((VectorClock.init 0).seen_time [(0, 3)]).seen_time [(1, 2)] :=
  (C7_observe_idempotent_commutative.2 (VectorClock.init 0) [(1, 2)] [(0, 3)]
    (by decide) (by decide) (by decide)).2

/-- Claim C2: Merge monotonicity.  For every clock instance of either kind
reached by any history of get_time and seen_time calls from a fresh
instance, after calling seen_time with any timestamp of the matching type
(canonical for the vector kind), the next get_time call returns a
timestamp strictly greater than the observed one and strictly greater
than every timestamp the instance previously returned. -/
theorem C2_merge_monotonicity :
    (∀ (pid : PID) (ops : List LOp) (ts : LamportTimeStamp),
      lamportLt ts
        ((((lamportRun (LamportClock.init pid) ops).1.seen_time ts).get_time).1) = true ∧
      ∀ o ∈ (lamportRun (LamportClock.init pid) ops).2,
        lamportLt o
          ((((lamportRun (LamportClock.init pid) ops).1.seen_time ts).get_time).1) = true) ∧
    (∀ (pid : PID) (ops : List VOp) (ts : List (PID × Int)), SortedKeys ts →
      vectorLt ts
        ((((vectorRun (VectorClock.init pid) ops).1.seen_time ts).get_time).1) = true ∧
      ∀ o ∈ (vectorRun (VectorClock.init pid) ops).2,
        vectorLt o
          ((((vectorRun (VectorClock.init pid) ops).1.seen_time ts).get_time).1) = true) := by
  constructor
  · intro pid ops ts
    obtain ⟨hpid, hle, houts⟩ := lamportRun_invariant ops (LamportClock.init pid)
    constructor
    · rw [lamportLt]
      simp only [Bool.or_eq_true, Bool.and_eq_true, decide_eq_true_eq]
      left
      show ts.counter
        < max (lamportRun (LamportClock.init pid) ops).1.counter ts.counter + 1
      have h2 := le_max_right (lamportRun (LamportClock.init pid) ops).1.counter ts.counter
      omega
    · intro o ho
      rw [lamportLt]
      simp only [Bool.or_eq_true, Bool.and_eq_true, decide_eq_true_eq]
      left
      show o.counter
        < max (lamportRun (LamportClock.init pid) ops).1.counter ts.counter + 1
      have h1 := houts o ho
      have h2 := le_max_left (lamportRun (LamportClock.init pid) ops).1.counter ts.counter
      omega
  · intro pid ops ts hts
    obtain ⟨hpid, hrest⟩ := vectorRun_invariant ops (VectorClock.init pid)
    obtain ⟨hfin, hdom, houts⟩ := hrest List.Pairwise.nil
    constructor
    · exact vectorLt_tickD hts
        (vleD_mergeFrom_right hts (vectorRun (VectorClock.init pid) ops).1.clocks)
        (vectorRun (VectorClock.init pid) ops).1.process_id
    · intro o ho
      obtain ⟨hso, hodom⟩ := houts o ho
      exact vectorLt_tickD hso
        (vleD_trans hodom
          (vleD_mergeFrom_left ts (vectorRun (VectorClock.init pid) ops).1.clocks))
        (vectorRun (VectorClock.init pid) ops).1.process_id

/-- Witness for C2: one-tick histories, concrete observed timestamps. -/
theorem C2_merge_monotonicity_witness :
    lamportLt { counter := 1, process_id := 0 }
      ((((lamportRun (LamportClock.init 0) [LOp.tick]).1.seen_time
        { counter := 5, process_id := 7 }).get_time).1) = true ∧
    vectorLt [(1, 4)]
      ((((vectorRun (VectorClock.init 0) [VOp.tick]).1.seen_time [(1, 4)]).get_time).1) = true :=
  ⟨(C2_merge_monotonicity.1 0 [LOp.tick] { counter := 5, process_id := 7 }).2
      { counter := 1, process_id := 0 } (by decide),
   (C2_merge_monotonicity.2 0 [VOp.tick] [(1, 4)] (by decide)).1⟩

/-- Claim C3: Restore monotonicity.  For either kind, advance a fresh
clock any number of times; for every timestamp ts it returned, export the
clock to a bundle and restore a clock c2 from the bundle: c2 has the
process identity of the original, and the first get_time result of c2 is
strictly greater than ts and strictly greater than the timestamp of the
bundle. -/
theorem C3_restore_monotonicity :
    (∀ (pid : PID) (n : Nat) (c : LamportClock) (outs : List LamportTimeStamp),
      lamportRun (LamportClock.init pid) (List.replicate n LOp.tick) = (c, outs) →
      ∀ ts ∈ outs,
        (LamportClock.create_from_export ((c.exportClock).1)).process_id = pid ∧
        lamportLt ((c.exportClock).1).ts
          (((LamportClock.create_from_export ((c.exportClock).1)).get_time).1) = true ∧
        lamportLt ts
          (((LamportClock.create_from_export ((c.exportClock).1)).get_time).1) = true) ∧
    (∀ (pid : PID) (n : Nat) (c : VectorClock) (outs : List (List (PID × Int))),
      vectorRun (VectorClock.init pid) (List.replicate n VOp.tick) = (c, outs) →
      ∀ ts ∈ outs,
        (VectorClock.create_from_export ((c.exportClock).1)).process_id = pid ∧
        vectorLt ((c.exportClock).1).ts
          (((VectorClock.create_from_export ((c.exportClock).1)).get_time).1) = true ∧
        vectorLt ts
          (((VectorClock.create_from_export ((c.exportClock).1)).get_time).1) = true) := by
  constructor
  · intro pid n c outs hrun ts hmem
    obtain ⟨hpid, hle, houts⟩ := lamportRun_invariant (List.replicate n LOp.tick)
      (LamportClock.init pid)
    rw [hrun] at hpid hle houts
    have hts2 : ts.counter ≤ c.counter := houts ts hmem
    refine ⟨hpid, ?_, ?_⟩
    · rw [lamportLt]
      simp only [Bool.or_eq_true, Bool.and_eq_true, decide_eq_true_eq]
      left
      show c.counter + 1 < max 0 (c.counter + 1) + 1
      have h2 := le_max_right (0 : Int) (c.counter + 1)
      omega
    · rw [lamportLt]
      simp only [Bool.or_eq_true, Bool.and_eq_true, decide_eq_true_eq]
      left
      show ts.counter < max 0 (c.counter + 1) + 1
      have h2 := le_max_right (0 : Int) (c.counter + 1)
      omega
  · intro pid n c outs hrun ts hmem
    obtain ⟨hpid, hrest⟩ := vectorRun_invariant (List.replicate n VOp.tick)
      (VectorClock.init pid)
    rw [hrun] at hpid hrest
    obtain ⟨hfin, hdom, houts⟩ := hrest List.Pairwise.nil
    obtain ⟨hso, hodom⟩ := houts ts hmem
    have hsE : SortedKeys (tickD c.clocks c.process_id) := sortedKeys_tickD _ hfin
    have hdomE : VleD (tickD c.clocks c.process_id)
        (mergeFrom [] (tickD c.clocks c.process_id)) :=
      vleD_mergeFrom_right hsE []
    refine ⟨hpid, ?_, ?_⟩
    · exact vectorLt_tickD hsE hdomE c.process_id
    · exact vectorLt_tickD hso
        (vleD_trans hodom (vleD_trans (vleD_tickD c.clocks c.process_id) hdomE))
        c.process_id

/-- Witness for C3 at one-tick histories of both kinds. -/
theorem C3_restore_monotonicity_witness :
    (LamportClock.create_from_export
      ((({ process_id := 0, counter := 1 } : LamportClock).exportClock).1)).process_id = 0 ∧
    (VectorClock.create_from_export
      ((({ process_id := 0, clocks := [(0, 1)] } : VectorClock).exportClock).1)).process_id = 0 :=
  ⟨(C3_restore_monotonicity.1 0 1 { process_id := 0, counter := 1 }
      [{ counter := 1, process_id := 0 }] (by decide)
      { counter := 1, process_id := 0 } (by decide)).1,
   (C3_restore_monotonicity.2 0 1 { process_id := 0, clocks := [(0, 1)] }
      [[(0, 1)]] (by decide) [(0, 1)] (by decide)).1⟩

/-- Claim C4, counterexample: the claim states the comparison with a key
absent in the right operand read as 0, so that the dict with the single
binding 0 at key 0 would be strictly below the empty dict; the source
requires the key set of the left operand to be contained in that of the
right operand, and returns, at this input, false. -/
theorem C4_counterexample :
    ¬(vectorLt [(0, 0)] ([] : List (PID × Int)) = true ↔
      (specVle [(0, 0)] ([] : List (PID × Int)) = true ∧
        [(0, 0)] ≠ ([] : List (PID × Int)))) := by
  decide

/-- Claim C4 (amended): for canonical vector timestamps A and B, A is
strictly below B iff every key present in A is also present in B with a
value at least the value in A, and A differs from B.  A key of A absent
from B, even bound to 0, makes the comparison return false (no
absent-as-0 reading on the right operand). -/
theorem C4_vector_comparison_amended :
    ∀ (a b : List (PID × Int)), SortedKeys a →
      (vectorLt a b = true ↔ (VleD a b ∧ a ≠ b)) := by
  intro a b ha
  exact vectorLt_eq_true_iff ha b

/-- Witness for the amended C4 at concrete dicts. -/
theorem C4_vector_comparison_amended_witness :
    VleD [(0, 1)] [(0, 2)] ∧ [(0, 1)] ≠ ([(0, 2)] : List (PID × Int)) :=
  (C4_vector_comparison_amended [(0, 1)] [(0, 2)] (by decide)).mp (by decide)

/-- Claim C8: Frontier growth invariant.  Every operation of VectorClock
(get_time, seen_time, export, create_from_export) only adds or increases
frontier entries: the frontier after the operation dominates the frontier
before it (for create_from_export, the empty frontier the fresh instance
starts from). -/
theorem C8_frontier_growth :
    ∀ (c : VectorClock) (ts : List (PID × Int)) (e : VectorExport),
      VleD c.clocks (((c.get_time).2).clocks) ∧
      VleD c.clocks ((c.seen_time ts).clocks) ∧
      VleD c.clocks (((c.exportClock).2).clocks) ∧
      VleD [] ((VectorClock.create_from_export e).clocks) := by
  intro c ts e
  refine ⟨vleD_tickD c.clocks c.process_id, vleD_mergeFrom_left ts c.clocks,
    vleD_tickD c.clocks c.process_id, ?_⟩
  intro k v h
  simp [lookupL] at h

/-- Claim C9: Malformed-bundle restore error.  For either clock kind,
calling create_from_export on a bundle missing its process identity or
its timestamp field fails with a distinguishable error (the attribute
error of the runtime) instead of returning a clock; with both fields
present it returns exactly the clock create_from_export builds. -/
theorem C9_malformed_restore :
    (∀ e : RawLamportExport, (e.pid = none ∨ e.ts = none) →
      ∃ msg, LamportClock.create_from_export_checked e = Except.error msg) ∧
    (∀ (e : RawLamportExport) (p : PID) (ts : LamportTimeStamp),
      e.pid = some p → e.ts = some ts →
      LamportClock.create_from_export_checked e
        = Except.ok (LamportClock.create_from_export { pid := p, ts := ts })) ∧
    (∀ e : RawVectorExport, (e.pid = none ∨ e.ts = none) →
      ∃ msg, VectorClock.create_from_export_checked e = Except.error msg) ∧
    (∀ (e : RawVectorExport) (p : PID) (ts : List (PID × Int)),
      e.pid = some p → e.ts = some ts →
      VectorClock.create_from_export_checked e
        = Except.ok (VectorClock.create_from_export { pid := p, ts := ts })) := by
  refine ⟨?_, ?_, ?_, ?_⟩
  · rintro ⟨epid, ets⟩ h
    rcases h with h | h
    · simp only at h
      subst h
      exact ⟨"AttributeError", rfl⟩
    · simp only at h
      subst h
      cases epid with
      | none => exact ⟨"AttributeError", rfl⟩
      | some p => exact ⟨"AttributeError", rfl⟩
  · rintro ⟨epid, ets⟩ p ts hp ht
    simp only at hp ht
    subst hp
    subst ht
    rfl
  · rintro ⟨epid, ets⟩ h
    rcases h with h | h
    · simp only at h
      subst h
      exact ⟨"AttributeError", rfl⟩
    · simp only at h
      subst h
      cases epid with
      | none => exact ⟨"AttributeError", rfl⟩
      | some p => exact ⟨"AttributeError", rfl⟩
  · rintro ⟨epid, ets⟩ p ts hp ht
    simp only at hp ht
    subst hp
    subst ht
    rfl

/-- Witness for C9 at concrete malformed bundles of both kinds. -/
theorem C9_malformed_restore_witness :
    (∃ msg, LamportClock.create_from_export_checked
      { pid := none, ts := none } = Except.error msg) ∧
    (∃ msg, VectorClock.create_from_export_checked
      { pid := some 0, ts := none } = Except.error msg) :=
  ⟨C9_malformed_restore.1 { pid := none, ts := none } (Or.inl rfl),
   C9_malformed_restore.2.2.1 { pid := some 0, ts := none } (Or.inr rfl)⟩

/-- Claim C10: the comparison on vector timestamps is a strict partial
order on arbitrary canonical dictionaries (not only clock-produced
ones): irreflexive, transitive, and asymmetric. -/
theorem C10_strict_partial_order :
    ∀ a b c : List (PID × Int), SortedKeys a → SortedKeys b → SortedKeys c →
      vectorLt a a = false ∧
      (vectorLt a b = true → vectorLt b c = true → vectorLt a c = true) ∧
      ¬(vectorLt a b = true ∧ vectorLt b a = true) := by
  intro a b c ha hb hc
  refine ⟨?_, ?_, ?_⟩
  · simp [vectorLt]
  · intro h1 h2
    rw [vectorLt_eq_true_iff ha] at h1
    rw [vectorLt_eq_true_iff hb] at h2
    rw [vectorLt_eq_true_iff ha]
    obtain ⟨hab, hneab⟩ := h1
    obtain ⟨hbc, _⟩ := h2
    refine ⟨vleD_trans hab hbc, ?_⟩
    intro hac
    apply hneab
    have hba : VleD b a := by
      rw [hac]
      exact hbc
    exact vleD_antisymm ha hb hab hba
  · rintro ⟨h1, h2⟩
    rw [vectorLt_eq_true_iff ha] at h1
    rw [vectorLt_eq_true_iff hb] at h2
    exact h1.2 (vleD_antisymm ha hb h1.1 h2.1)

/-- Witness for C10: transitivity applied at concrete dicts. -/
theorem C10_strict_partial_order_witness :
    vectorLt [(0, 1)] [(0, 3)] = true :=
  (C10_strict_partial_order [(0, 1)] [(0, 2)] [(0, 3)]
    (by decide) (by decide) (by decide)).2.1 (by decide) (by decide)

end Clock
